import Mathlib

/-!
Verification of the alias-generation engine of the `nicksh` repository.

Go strings are modelled as lists of characters (`GoStr := List Char`),
i.e. at the codepoint level, following the spec's design note §9 that the
byte-position indexing of the source assumes ASCII input; on the ASCII
alphabet the two views coincide, and every emitted alias name is checked
against an ASCII-only character class before emission.

Go maps are modelled as association lists; the unspecified iteration
order of a Go `range` over a map is made explicit as a `keyOrder`
parameter where the source iterates over a map
(`generateAliasesFromCommandFirstArgAggregation`).

Sources embedded:
  internal/adapters/commandanalysis (BasicAnalyzer.Analyze and helpers),
  internal/adapters/aliasgeneration/generator.go,
  internal/adapters/aliasgeneration/generator_helpers.go,
  internal/core/services/aliassuggestion (service helpers).
-/

namespace Nicksh

/-- A Go string, modelled as its list of characters. -/
abbrev GoStr := List Char

/-- Embeds `history.CommandFrequency` from `internal/core/domain/history`. -/
structure CommandFrequency where
  Command : GoStr
  Count : Int
deriving DecidableEq, Repr

/-- Embeds `command.AnalyzedCommand` from `internal/core/domain/command`. -/
structure AnalyzedCommand where
  Original : GoStr
  CommandName : GoStr
  IsComplex : Bool
  PotentialArgs : List GoStr
  EffectiveLength : Nat
deriving DecidableEq, Repr

/-- Embeds `alias.Alias` from `internal/core/domain/alias`. -/
structure Alias where
  Command : GoStr
  Name : GoStr
deriving DecidableEq, Repr

/-- The zero value of `command.AnalyzedCommand` in Go. -/
def zeroAnalyzedCommand : AnalyzedCommand :=
  { Original := [], CommandName := [], IsComplex := false, PotentialArgs := [],
    EffectiveLength := 0 }

/-- Embeds `unicode.IsSpace` restricted to the characters relevant for shell input. -/
def goIsSpace (c : Char) : Bool :=
  c == ' ' || c == '\t' || c == '\n' || c == '\x0b' || c == '\x0c' || c == '\r'

/-- Embeds `strings.TrimSpace`. -/
def goTrimSpace (s : GoStr) : GoStr :=
  ((s.dropWhile goIsSpace).reverse.dropWhile goIsSpace).reverse

/-- Embeds `strings.Split` with a one-character separator: always returns a
non-empty list of (possibly empty) segments. -/
def splitOnChar (sep : Char) : GoStr → List GoStr
  | [] => [[]]
  | c :: rest =>
    let r := splitOnChar sep rest
    if c = sep then
      [] :: r
    else
      match r with
      | [] => [[c]]
      | h :: t => (c :: h) :: t

/-- Loop of `BasicAnalyzer.parseArguments`
(`internal/adapters/commandanalysis/analyzer_helpers.go`): quote-aware,
escape-aware whitespace splitting.  `cur` holds the current argument in
reverse. -/
def parseArgumentsAux : GoStr → Bool → Bool → GoStr → List GoStr
  | [], _, _, cur => if cur = [] then [] else [cur.reverse]
  | c :: rest, inQuotes, isEscaped, cur =>
    if isEscaped then
      parseArgumentsAux rest inQuotes false (c :: cur)
    else if c = '\\' then
      parseArgumentsAux rest inQuotes true cur
    else if c = '"' then
      parseArgumentsAux rest (!inQuotes) false cur
    else if goIsSpace c && !inQuotes then
      if cur = [] then parseArgumentsAux rest inQuotes false []
      else cur.reverse :: parseArgumentsAux rest inQuotes false []
    else
      parseArgumentsAux rest inQuotes false (c :: cur)

/-- Embeds `BasicAnalyzer.parseArguments`. -/
def parseArguments (trimmedCommandStr : GoStr) : List GoStr :=
  parseArgumentsAux trimmedCommandStr false false []

/-- The shell metacharacters of `determineComplexity`. -/
def shellMetaChars : GoStr := ['|', '&', ';', '<', '>', '(', ')']

/-- Embeds `BasicAnalyzer.determineComplexity`: more than five parts, or the
original string contains one of `|&;<>()`. -/
def determineComplexity (originalCommandStr : GoStr) (args : List GoStr) : Bool :=
  decide (args.length > 5) || originalCommandStr.any (fun c => shellMetaChars.contains c)

/-- Embeds `BasicAnalyzer.Analyze`
(`internal/adapters/commandanalysis`): trims, splits into arguments,
strips a leading `./` from the command name, flags complexity, and
records the whitespace-free length. -/
def basicAnalyze (commandStr : GoStr) : AnalyzedCommand :=
  let trimmedCommandStr := goTrimSpace commandStr
  let effectiveLength := (trimmedCommandStr.filter (fun c => c ≠ ' ')).length
  if trimmedCommandStr = [] then
    { Original := commandStr, CommandName := [], IsComplex := false,
      PotentialArgs := [], EffectiveLength := 0 }
  else
    let args := parseArguments trimmedCommandStr
    let cmdName :=
      match args with
      | [] => ([] : GoStr)
      | a0 :: _ => if ['.', '/'].isPrefixOf a0 then a0.drop 2 else a0
    let potentialArgs :=
      match args with
      | [] => ([] : List GoStr)
      | _ :: restArgs => restArgs
    { Original := commandStr, CommandName := cmdName,
      IsComplex := determineComplexity commandStr args,
      PotentialArgs := potentialArgs, EffectiveLength := effectiveLength }

/-- Embeds `_, exists := m[k]` key membership on a Go map, as a Bool. -/
def existsKey {β : Type} (m : List (GoStr × β)) (k : GoStr) : Bool :=
  m.any (fun p => p.1 = k)

/-- Embeds `isAliasNameValid` (`generator_helpers.go`): the proposed name must not
be a key of the provided existing-aliases map. -/
def isAliasNameValid (proposedName : GoStr) (existingAliases : List (GoStr × GoStr)) : Bool :=
  if existsKey existingAliases proposedName then false else true

/-- Embeds `validAliasCharsRegex = ^[a-zA-Z0-9.]+$` (`generator_helpers.go`):
one or more alphanumerics or dots, spanning the whole string. -/
def matchesValidAliasCharsRegex (s : GoStr) : Bool :=
  !s.isEmpty && s.all (fun c => c.isAlphanum || c == '.')

/-- Embeds `AliasGenerator.isProposedNameValid` (`generator_helpers.go`). -/
def isProposedNameValid (proposedName : GoStr) (originalCommandName : GoStr)
    (existingAliases : List (GoStr × GoStr)) (generatedNamesInThisRun : List GoStr) : Bool :=
  if proposedName.length < 2 then false
  else if !matchesValidAliasCharsRegex proposedName then false
  else if proposedName = originalCommandName then false
  else if proposedName ∈ generatedNamesInThisRun then false
  else isAliasNameValid proposedName existingAliases

/-- Embeds `AliasGenerator.generateCommandSubcommandAliasName`
(`generator_helpers.go`): command initial plus one character derived from
the first potential argument, with the `cd ..` → `up` special case. -/
def generateCommandSubcommandAliasName (analyzedCmd : AnalyzedCommand) : GoStr :=
  if analyzedCmd.CommandName = [] then []
  else if analyzedCmd.CommandName = "cd".toList ∧ analyzedCmd.PotentialArgs = ["..".toList] then
    "up".toList
  else
    let cmdNameLower := analyzedCmd.CommandName.map Char.toLower
    let aliasInitial := cmdNameLower.take 1
    match analyzedCmd.PotentialArgs with
    | firstArg :: _ =>
      if firstArg.length > 0 then
        if firstArg.contains '/' then
          let parts := splitOnChar '/' firstArg
          let lastPart := parts.getLastD []
          if lastPart ≠ [] ∧ ¬(['.'].isPrefixOf lastPart) then
            aliasInitial ++ (lastPart.map Char.toLower).take 1
          else
            aliasInitial ++ (firstArg.map Char.toLower).take 1
        else if ¬(['-'].isPrefixOf firstArg) then
          aliasInitial ++ (firstArg.map Char.toLower).take 1
        else if cmdNameLower.length > 1 then
          cmdNameLower.take 2
        else
          aliasInitial
      else if cmdNameLower.length > 1 then
        cmdNameLower.take 2
      else
        aliasInitial
    | [] =>
      if cmdNameLower.length > 1 then cmdNameLower.take 2 else aliasInitial

/-- The `partToAdd` computation of one iteration of the argument loop in
`AliasGenerator.generateExactCommandAliasName`; returns `[]` where the Go
code leaves `partToAdd` empty or `continue`s. -/
def exactNamePartToAdd (cleanArg : GoStr) : GoStr :=
  if ['-', '-'].isPrefixOf cleanArg ∧ cleanArg.length > 2 then
    (cleanArg.drop 2).take 1
  else if ['-'].isPrefixOf cleanArg ∧ cleanArg.length > 1 then
    (cleanArg.drop 1).take 1
  else if cleanArg = ['.'] then
    ['.']
  else if cleanArg = ['.', '.'] then
    []
  else if cleanArg.contains '/' then
    let pathParts := splitOnChar '/' cleanArg
    let significantPart :=
      match pathParts.reverse.find? (fun p => !p.isEmpty && !(['.'].isPrefixOf p)) with
      | some p => p
      | none => pathParts.getLastD []
    significantPart.take 1
  else if ¬(['-'].isPrefixOf cleanArg) then
    cleanArg.take 1
  else
    []

/-- The argument loop of `AliasGenerator.generateExactCommandAliasName`:
collects up to `maxArgInitials = 3` argument-derived characters into
`nameParts`. -/
def exactNameLoop : List GoStr → List GoStr → Nat → List GoStr
  | [], nameParts, _ => nameParts
  | arg :: rest, nameParts, argInitialsCount =>
    if argInitialsCount ≥ 3 then nameParts
    else if arg.length = 0 then exactNameLoop rest nameParts argInitialsCount
    else
      let cleanArg := arg.map Char.toLower
      let partToAdd := exactNamePartToAdd cleanArg
      let joined := nameParts.flatten
      let nameParts' :=
        if partToAdd ≠ [] then
          if partToAdd = ['.'] ∧ nameParts.length > 1 ∧ joined.length > 1 then
            nameParts ++ [partToAdd]
          else if partToAdd ≠ ['.'] then
            nameParts ++ [partToAdd]
          else nameParts
        else nameParts
      let argInitialsCount' :=
        if partToAdd ≠ [] ∧ partToAdd ≠ ['.'] then argInitialsCount + 1
        else argInitialsCount
      exactNameLoop rest nameParts' argInitialsCount'

/-- Embeds `AliasGenerator.generateExactCommandAliasName` (`generator_helpers.go`). -/
def generateExactCommandAliasName (analyzedCmd : AnalyzedCommand) : GoStr :=
  if analyzedCmd.CommandName = [] then []
  else if analyzedCmd.CommandName = "cd".toList ∧ analyzedCmd.PotentialArgs = ["..".toList] then
    "up".toList
  else if analyzedCmd.IsComplex then
    if analyzedCmd.CommandName.length ≥ 2 then
      (analyzedCmd.CommandName.take 2).map Char.toLower
    else
      (analyzedCmd.CommandName.map Char.toLower).take 1
  else
    let nameParts :=
      exactNameLoop analyzedCmd.PotentialArgs
        [(analyzedCmd.CommandName.map Char.toLower).take 1] 0
    if nameParts.length = 1 then
      if analyzedCmd.CommandName.length ≥ 2 then
        (analyzedCmd.CommandName.take 2).map Char.toLower
      else
        nameParts.getD 0 []
    else
      nameParts.flatten

/-- Association-list lookup, modelling Go map indexing. -/
def alistLookup {β : Type} (m : List (GoStr × β)) (k : GoStr) : Option β :=
  match m.find? (fun p => p.1 = k) with
  | some p => some p.2
  | none => none

/-- Embeds `cmdFirstArgFreq[key] += count`: accumulate in place, append a new
binding for a fresh key (insertion order is the model's canonical key
order). -/
def alistAddInt (key : GoStr) (n : Int) : List (GoStr × Int) → List (GoStr × Int)
  | [] => [(key, n)]
  | (k, v) :: rest =>
    if k = key then (k, v + n) :: rest else (k, v) :: alistAddInt key n rest

/-- Embeds `if _, exists := m[key]; !exists { m[key] = v }`: insert only when the
key is absent. -/
def alistInsertIfAbsent {β : Type} (key : GoStr) (v : β) :
    List (GoStr × β) → List (GoStr × β)
  | [] => [(key, v)]
  | (k, w) :: rest =>
    if k = key then (k, w) :: rest else (k, w) :: alistInsertIfAbsent key v rest

/-- The body of the loop in
`AliasGenerator.aggregateForCommandFirstArgStrategy` for one
`CommandFrequency` entry. -/
def aggregateStep (analyzer : GoStr → AnalyzedCommand) (minCommandEffectiveLength : Nat)
    (acc : List (GoStr × Int) × List (GoStr × AnalyzedCommand)) (cmdFreq : CommandFrequency) :
    List (GoStr × Int) × List (GoStr × AnalyzedCommand) :=
  let analyzed := analyzer cmdFreq.Command
  if analyzed.EffectiveLength < minCommandEffectiveLength then acc
  else if analyzed.CommandName = [] ∨ analyzed.PotentialArgs = [] then acc
  else
    match analyzed.PotentialArgs.find? (fun arg => !(['-'].isPrefixOf arg) && !arg.isEmpty) with
    | none => acc
    | some firstNonFlagArg =>
      let key := analyzed.CommandName ++ [' '] ++ firstNonFlagArg
      (alistAddInt key cmdFreq.Count acc.1,
       alistInsertIfAbsent key
         { Original := key, CommandName := analyzed.CommandName, IsComplex := false,
           PotentialArgs := [firstNonFlagArg],
           EffectiveLength := (key.filter (fun c => c ≠ ' ')).length }
         acc.2)

/-- Embeds `AliasGenerator.aggregateForCommandFirstArgStrategy`
(`generator_helpers.go`): per-key accumulated counts and one
representative simplified `AnalyzedCommand` per key (first seen wins). -/
def aggregateForCommandFirstArgStrategy (analyzer : GoStr → AnalyzedCommand)
    (commands : List CommandFrequency) (minCommandEffectiveLength : Nat) :
    List (GoStr × Int) × List (GoStr × AnalyzedCommand) :=
  commands.foldl (aggregateStep analyzer minCommandEffectiveLength) ([], [])

/-- Shared emission loop shape of both strategies: walk the work items in
order; when `tryEmit` produces an alias, append it to the suggestion list
and record its name in `generatedNamesInThisRun`. -/
def emitLoop {α : Type} (tryEmit : α → List GoStr → Option Alias) :
    List α → List GoStr → List Alias × List GoStr
  | [], generated => ([], generated)
  | x :: rest, generated =>
    match tryEmit x generated with
    | some al =>
      let p := emitLoop tryEmit rest (al.Name :: generated)
      (al :: p.1, p.2)
    | none => emitLoop tryEmit rest generated

/-- One iteration of the loop in
`AliasGenerator.generateAliasesFromCommandFirstArgAggregation` for one
aggregation key.  A key absent from the frequency map yields nothing
(Go's `range` only visits present keys); a key present in the frequency
map but absent from the representative map falls back to the Go zero
value, exactly as Go map indexing does. -/
def firstArgTryEmit (cmdFirstArgFreq : List (GoStr × Int))
    (cmdFirstArgToAnalyzedCmd : List (GoStr × AnalyzedCommand)) (minFrequency : Int)
    (existingAliases : List (GoStr × GoStr)) (keyCmdFirstArg : GoStr)
    (generatedNamesInThisRun : List GoStr) : Option Alias :=
  match alistLookup cmdFirstArgFreq keyCmdFirstArg with
  | none => none
  | some count =>
    if count < minFrequency then none
    else
      let analyzedForNameGen :=
        (alistLookup cmdFirstArgToAnalyzedCmd keyCmdFirstArg).getD zeroAnalyzedCommand
      let proposedName := generateCommandSubcommandAliasName analyzedForNameGen
      if isProposedNameValid proposedName analyzedForNameGen.CommandName existingAliases
          generatedNamesInThisRun then
        some { Name := proposedName, Command := keyCmdFirstArg }
      else none

/-- Embeds `AliasGenerator.generateAliasesFromCommandFirstArgAggregation`
(`generator_helpers.go`), with the Go map iteration order made explicit
as `keyOrder`. -/
def generateAliasesFromCommandFirstArgAggregation (keyOrder : List GoStr)
    (cmdFirstArgFreq : List (GoStr × Int))
    (cmdFirstArgToAnalyzedCmd : List (GoStr × AnalyzedCommand)) (minFrequency : Int)
    (existingAliases : List (GoStr × GoStr)) (generatedNamesInThisRun : List GoStr) :
    List Alias × List GoStr :=
  emitLoop
    (firstArgTryEmit cmdFirstArgFreq cmdFirstArgToAnalyzedCmd minFrequency existingAliases)
    keyOrder generatedNamesInThisRun

/-- One iteration of the loop in
`AliasGenerator.generateExactFullCommandAliasesStrategy` for one
`CommandFrequency` entry. -/
def exactTryEmit (analyzer : GoStr → AnalyzedCommand) (minFrequency : Int)
    (existingAliases : List (GoStr × GoStr)) (minCommandEffectiveLength : Nat)
    (cmdFreq : CommandFrequency) (generatedNamesInThisRun : List GoStr) : Option Alias :=
  let analyzed := analyzer cmdFreq.Command
  if analyzed.IsComplex then none
  else if analyzed.EffectiveLength < minCommandEffectiveLength then none
  else if cmdFreq.Count < minFrequency then none
  else if analyzed.CommandName = [] then none
  else
    let proposedName := generateExactCommandAliasName analyzed
    if isProposedNameValid proposedName analyzed.CommandName existingAliases
        generatedNamesInThisRun then
      some { Name := proposedName, Command := cmdFreq.Command }
    else none

/-- Embeds `AliasGenerator.generateExactFullCommandAliasesStrategy`
(`generator_helpers.go`). -/
def generateExactFullCommandAliasesStrategy (analyzer : GoStr → AnalyzedCommand)
    (commands : List CommandFrequency) (minFrequency : Int)
    (existingAliases : List (GoStr × GoStr)) (generatedNamesInThisRun : List GoStr)
    (minCommandEffectiveLength : Nat) : List Alias × List GoStr :=
  emitLoop (exactTryEmit analyzer minFrequency existingAliases minCommandEffectiveLength)
    commands generatedNamesInThisRun

/-- Embeds `minCommandEffectiveLength` constant of `GenerateSuggestions`. -/
def minCommandEffectiveLength : Nat := 4

/-- Embeds `AliasGenerator.GenerateSuggestions` (`generator.go`), with the Go map
iteration order of strategy 1 made explicit as `keyOrder`. -/
def generateSuggestionsWith (analyzer : GoStr → AnalyzedCommand) (keyOrder : List GoStr)
    (commands : List CommandFrequency) (existingAliases : List (GoStr × GoStr))
    (minFrequency : Int) : List Alias :=
  let agg := aggregateForCommandFirstArgStrategy analyzer commands minCommandEffectiveLength
  let strategy1 :=
    generateAliasesFromCommandFirstArgAggregation keyOrder agg.1 agg.2 minFrequency
      existingAliases []
  let strategy2 :=
    generateExactFullCommandAliasesStrategy analyzer commands minFrequency existingAliases
      strategy1.2 minCommandEffectiveLength
  strategy1.1 ++ strategy2.1

/-- Embeds `AliasGenerator.GenerateSuggestions` with one concrete admissible
iteration order for the strategy-1 aggregation map: its key insertion
order. -/
def generateSuggestions (analyzer : GoStr → AnalyzedCommand)
    (commands : List CommandFrequency) (existingAliases : List (GoStr × GoStr))
    (minFrequency : Int) : List Alias :=
  generateSuggestionsWith analyzer
    ((aggregateForCommandFirstArgStrategy analyzer commands minCommandEffectiveLength).1.map
      Prod.fst)
    commands existingAliases minFrequency

/-! ### Properties of the name validator -/

theorem isProposedNameValid_spec {n cn : GoStr} {ex : List (GoStr × GoStr)} {g : List GoStr}
    (h : isProposedNameValid n cn ex g = true) :
    2 ≤ n.length ∧ matchesValidAliasCharsRegex n = true ∧ n ≠ cn ∧ n ∉ g ∧
      existsKey ex n = false := by
  unfold isProposedNameValid isAliasNameValid at h
  by_cases h1 : n.length < 2
  · simp [h1] at h
  by_cases h2 : matchesValidAliasCharsRegex n
  · by_cases h3 : n = cn
    · simp [h1, h2, h3] at h
    by_cases h4 : n ∈ g
    · simp [h1, h2, h3, h4] at h
    by_cases h5 : existsKey ex n
    · simp [h1, h2, h3, h4, h5] at h
    · exact ⟨by omega, by simp [h2], h3, h4, by simp [h5]⟩
  · simp [h1, h2] at h

/-- The run-scoped-set check is the only part of `isProposedNameValid`
that depends on `generatedNamesInThisRun`. -/
theorem isProposedNameValid_split (n cn : GoStr) (ex : List (GoStr × GoStr)) (g : List GoStr) :
    isProposedNameValid n cn ex g = (isProposedNameValid n cn ex [] && !(n ∈ g : Bool)) := by
  unfold isProposedNameValid
  by_cases h1 : n.length < 2
  · simp [h1]
  by_cases h2 : matchesValidAliasCharsRegex n
  · by_cases h3 : n = cn
    · simp [h1, h2, h3]
    by_cases h4 : n ∈ g
    · simp [h1, h2, h3, h4]
    · simp [h1, h2, h3, h4]
  · simp [h1, h2]

theorem isProposedNameValid_congr (n cn : GoStr) (ex : List (GoStr × GoStr))
    {g g' : List GoStr} (hg : ∀ m, m ∈ g ↔ m ∈ g') :
    isProposedNameValid n cn ex g = isProposedNameValid n cn ex g' := by
  rw [isProposedNameValid_split n cn ex g, isProposedNameValid_split n cn ex g']
  by_cases h : n ∈ g
  · simp [h, (hg n).mp h]
  · have h' : n ∉ g' := fun h' => h ((hg n).mpr h')
    simp [h, h']

/-! ### Properties of the shared emission loop -/

theorem emitLoop_snd {α : Type} (t : α → List GoStr → Option Alias) (l : List α)
    (g : List GoStr) :
    (emitLoop t l g).2 = ((emitLoop t l g).1.map Alias.Name).reverse ++ g := by
  induction l generalizing g with
  | nil => simp [emitLoop]
  | cons x rest ih =>
    unfold emitLoop
    cases hx : t x g with
    | some al => simp [ih (al.Name :: g)]
    | none => simp [ih g]

theorem emitLoop_mem {α : Type} (t : α → List GoStr → Option Alias) (P : Alias → Prop)
    (hP : ∀ x g al, t x g = some al → P al) :
    ∀ (l : List α) (g : List GoStr), ∀ al ∈ (emitLoop t l g).1, P al := by
  intro l
  induction l with
  | nil => intro g al hal; simp [emitLoop] at hal
  | cons x rest ih =>
    intro g al hal
    unfold emitLoop at hal
    cases hx : t x g with
    | some al0 =>
      rw [hx] at hal
      simp at hal
      rcases hal with h | h
      · exact h ▸ hP x g al0 hx
      · exact ih _ al h
    | none =>
      rw [hx] at hal
      exact ih g al hal

theorem emitLoop_nodup {α : Type} (t : α → List GoStr → Option Alias)
    (hf : ∀ x g al, t x g = some al → al.Name ∉ g) :
    ∀ (l : List α) (g : List GoStr),
      ((emitLoop t l g).1.map Alias.Name).Nodup ∧
      ∀ n ∈ (emitLoop t l g).1.map Alias.Name, n ∉ g := by
  intro l
  induction l with
  | nil => intro g; simp [emitLoop]
  | cons x rest ih =>
    intro g
    unfold emitLoop
    cases hx : t x g with
    | some al =>
      obtain ⟨ihnd, ihfresh⟩ := ih (al.Name :: g)
      have hfresh0 : al.Name ∉ g := hf x g al hx
      constructor
      · simp only [List.map_cons, List.nodup_cons]
        refine ⟨fun hmem => ?_, ihnd⟩
        · exact ihfresh al.Name hmem (by simp)
      · intro n hn
        simp only [List.map_cons, List.mem_cons] at hn
        rcases hn with rfl | hn
        · exact hfresh0
        · exact fun hng => ihfresh n hn (by simp [hng])
    | none => exact ih g

theorem emitLoop_origin {α : Type} (t : α → List GoStr → Option Alias) :
    ∀ (l : List α) (g : List GoStr), ∀ al ∈ (emitLoop t l g).1,
      ∃ x ∈ l, ∃ g0, t x g0 = some al := by
  intro l
  induction l with
  | nil => intro g al hal; simp [emitLoop] at hal
  | cons x rest ih =>
    intro g al hal
    unfold emitLoop at hal
    cases hx : t x g with
    | some al0 =>
      rw [hx] at hal
      simp at hal
      rcases hal with h | h
      · exact ⟨x, by simp, g, h ▸ hx⟩
      · obtain ⟨y, hy, g0, h0⟩ := ih _ al h
        exact ⟨y, by simp [hy], g0, h0⟩
    | none =>
      rw [hx] at hal
      obtain ⟨y, hy, g0, h0⟩ := ih g al hal
      exact ⟨y, by simp [hy], g0, h0⟩

/-! ### Inversion of the two strategies' per-item emission -/

theorem firstArgTryEmit_some {freq : List (GoStr × Int)} {reprs : List (GoStr × AnalyzedCommand)}
    {mf : Int} {ex : List (GoStr × GoStr)} {key : GoStr} {g : List GoStr} {al : Alias}
    (h : firstArgTryEmit freq reprs mf ex key g = some al) :
    al.Command = key ∧
    al.Name = generateCommandSubcommandAliasName
      ((alistLookup reprs key).getD zeroAnalyzedCommand) ∧
    isProposedNameValid al.Name
      ((alistLookup reprs key).getD zeroAnalyzedCommand).CommandName ex g = true := by
  unfold firstArgTryEmit at h
  cases hl : alistLookup freq key with
  | none => rw [hl] at h; exact absurd h (by simp)
  | some count =>
    rw [hl] at h
    by_cases hc : count < mf
    · simp [hc] at h
    · simp only [if_neg hc] at h
      by_cases hv : isProposedNameValid
          (generateCommandSubcommandAliasName ((alistLookup reprs key).getD zeroAnalyzedCommand))
          ((alistLookup reprs key).getD zeroAnalyzedCommand).CommandName ex g
      · rw [if_pos hv] at h
        obtain rfl := Option.some.inj h
        exact ⟨rfl, rfl, hv⟩
      · rw [if_neg hv] at h
        exact absurd h (by simp)

theorem exactTryEmit_some {analyzer : GoStr → AnalyzedCommand} {mf : Int}
    {ex : List (GoStr × GoStr)} {minLen : Nat} {cf : CommandFrequency} {g : List GoStr}
    {al : Alias} (h : exactTryEmit analyzer mf ex minLen cf g = some al) :
    al.Command = cf.Command ∧
    al.Name = generateExactCommandAliasName (analyzer cf.Command) ∧
    isProposedNameValid al.Name (analyzer cf.Command).CommandName ex g = true := by
  unfold exactTryEmit at h
  by_cases h1 : (analyzer cf.Command).IsComplex
  · simp [h1] at h
  by_cases h2 : (analyzer cf.Command).EffectiveLength < minLen
  · simp [h1, h2] at h
  by_cases h3 : cf.Count < mf
  · simp [h1, h2, h3] at h
  by_cases h4 : (analyzer cf.Command).CommandName = []
  · simp [h1, h2, h3, h4] at h
  simp only [if_neg h1, if_neg h2, if_neg h3, if_neg h4, Bool.false_eq_true] at h
  by_cases hv : isProposedNameValid (generateExactCommandAliasName (analyzer cf.Command))
      (analyzer cf.Command).CommandName ex g
  · rw [if_pos hv] at h
    obtain rfl := Option.some.inj h
    exact ⟨rfl, rfl, hv⟩
  · rw [if_neg hv] at h
    exact absurd h (by simp)

/-! ### Claim theorems -/

/-- Claim C1: for every input (commands list, existing-aliases map,
minimum frequency) — and every admissible iteration order of the
strategy-1 aggregation map — every `Alias` returned by
`GenerateSuggestions` has a pairwise-distinct `Name` of length at least
2 that is not a key of the `existingAliases` map; moreover a
strategy-1 alias's name differs from the `CommandName` of the stored
representative analyzed command it was generated from, and a strategy-2
alias's name differs from the `CommandName` of the analysis of the
command it aliases.  The returned list is exactly the strategy-1 output
followed by the strategy-2 output. -/
theorem c1_suggestion_invariants (analyzer : GoStr → AnalyzedCommand) (keyOrder : List GoStr)
    (commands : List CommandFrequency) (existingAliases : List (GoStr × GoStr))
    (minFrequency : Int) :
    ((generateSuggestionsWith analyzer keyOrder commands existingAliases minFrequency).map
        Alias.Name).Nodup
    ∧ (∀ al ∈ generateSuggestionsWith analyzer keyOrder commands existingAliases minFrequency,
        2 ≤ al.Name.length ∧ existsKey existingAliases al.Name = false)
    ∧ (∀ al ∈ (generateAliasesFromCommandFirstArgAggregation keyOrder
          (aggregateForCommandFirstArgStrategy analyzer commands minCommandEffectiveLength).1
          (aggregateForCommandFirstArgStrategy analyzer commands minCommandEffectiveLength).2
          minFrequency existingAliases []).1,
        al.Name ≠ ((alistLookup
            (aggregateForCommandFirstArgStrategy analyzer commands minCommandEffectiveLength).2
            al.Command).getD zeroAnalyzedCommand).CommandName)
    ∧ (∀ al ∈ (generateExactFullCommandAliasesStrategy analyzer commands minFrequency
          existingAliases
          (generateAliasesFromCommandFirstArgAggregation keyOrder
            (aggregateForCommandFirstArgStrategy analyzer commands minCommandEffectiveLength).1
            (aggregateForCommandFirstArgStrategy analyzer commands minCommandEffectiveLength).2
            minFrequency existingAliases []).2 minCommandEffectiveLength).1,
        al.Name ≠ (analyzer al.Command).CommandName)
    ∧ generateSuggestionsWith analyzer keyOrder commands existingAliases minFrequency
      = (generateAliasesFromCommandFirstArgAggregation keyOrder
          (aggregateForCommandFirstArgStrategy analyzer commands minCommandEffectiveLength).1
          (aggregateForCommandFirstArgStrategy analyzer commands minCommandEffectiveLength).2
          minFrequency existingAliases []).1
        ++ (generateExactFullCommandAliasesStrategy analyzer commands minFrequency
          existingAliases
          (generateAliasesFromCommandFirstArgAggregation keyOrder
            (aggregateForCommandFirstArgStrategy analyzer commands minCommandEffectiveLength).1
            (aggregateForCommandFirstArgStrategy analyzer commands minCommandEffectiveLength).2
            minFrequency existingAliases []).2 minCommandEffectiveLength).1 := by
  simp only [generateSuggestionsWith, generateAliasesFromCommandFirstArgAggregation,
    generateExactFullCommandAliasesStrategy]
  set freq := (aggregateForCommandFirstArgStrategy analyzer commands minCommandEffectiveLength).1
    with hfreq
  set reprs := (aggregateForCommandFirstArgStrategy analyzer commands minCommandEffectiveLength).2
    with hreprs
  set t1 := firstArgTryEmit freq reprs minFrequency existingAliases with ht1
  set t2 := exactTryEmit analyzer minFrequency existingAliases minCommandEffectiveLength with ht2
  have hf1 : ∀ (x : GoStr) (g : List GoStr) (al : Alias), t1 x g = some al → al.Name ∉ g := by
    intro x g al h
    exact ((isProposedNameValid_spec (firstArgTryEmit_some h).2.2).2.2).2.1
  have hf2 : ∀ (x : CommandFrequency) (g : List GoStr) (al : Alias),
      t2 x g = some al → al.Name ∉ g := by
    intro x g al h
    exact ((isProposedNameValid_spec (exactTryEmit_some h).2.2).2.2).2.1
  have hnd1 := emitLoop_nodup t1 hf1 keyOrder []
  have hnd2 := emitLoop_nodup t2 hf2 commands (emitLoop t1 keyOrder []).2
  have hg1 := emitLoop_snd t1 keyOrder []
  refine ⟨?_, ?_, ?_, ?_, trivial⟩
  · rw [List.map_append, List.nodup_append]
    refine ⟨hnd1.1, hnd2.1, ?_⟩
    intro n hn1 hn2
    refine hnd2.2 n hn2 ?_
    rw [hg1]
    simp [hn1]
  · intro al hal
    rw [List.mem_append] at hal
    rcases hal with hal | hal
    · refine emitLoop_mem t1 (fun al => 2 ≤ al.Name.length ∧ existsKey existingAliases al.Name = false)
        ?_ keyOrder [] al hal
      intro x g al0 h
      obtain ⟨hlen, _, _, _, hex⟩ := isProposedNameValid_spec (firstArgTryEmit_some h).2.2
      exact ⟨hlen, hex⟩
    · refine emitLoop_mem t2 (fun al => 2 ≤ al.Name.length ∧ existsKey existingAliases al.Name = false)
        ?_ commands (emitLoop t1 keyOrder []).2 al hal
      intro x g al0 h
      obtain ⟨hlen, _, _, _, hex⟩ := isProposedNameValid_spec (exactTryEmit_some h).2.2
      exact ⟨hlen, hex⟩
  · refine emitLoop_mem t1
      (fun al => al.Name ≠ ((alistLookup reprs al.Command).getD zeroAnalyzedCommand).CommandName)
      ?_ keyOrder []
    intro x g al0 h
    obtain ⟨hcmd, _, hvalid⟩ := firstArgTryEmit_some h
    rw [hcmd]
    exact (isProposedNameValid_spec hvalid).2.2.1
  · refine emitLoop_mem t2 (fun al => al.Name ≠ (analyzer al.Command).CommandName)
      ?_ commands (emitLoop t1 keyOrder []).2
    intro x g al0 h
    obtain ⟨hcmd, _, hvalid⟩ := exactTryEmit_some h
    rw [hcmd]
    exact (isProposedNameValid_spec hvalid).2.2.1

/-! ### Order-(in)sensitivity of the strategy-1 map iteration -/

/-- The part of `firstArgTryEmit`'s verdict for a key that does not
depend on the run-scoped generated-names set. -/
def firstArgStaticOk (cmdFirstArgFreq : List (GoStr × Int))
    (cmdFirstArgToAnalyzedCmd : List (GoStr × AnalyzedCommand)) (minFrequency : Int)
    (existingAliases : List (GoStr × GoStr)) (key : GoStr) : Bool :=
  match alistLookup cmdFirstArgFreq key with
  | none => false
  | some count =>
    if count < minFrequency then false
    else
      let a := (alistLookup cmdFirstArgToAnalyzedCmd key).getD zeroAnalyzedCommand
      isProposedNameValid (generateCommandSubcommandAliasName a) a.CommandName existingAliases []

theorem firstArgTryEmit_char (freq : List (GoStr × Int)) (reprs : List (GoStr × AnalyzedCommand))
    (mf : Int) (ex : List (GoStr × GoStr)) (key : GoStr) (g : List GoStr) :
    firstArgTryEmit freq reprs mf ex key g =
      if firstArgStaticOk freq reprs mf ex key = true ∧
          generateCommandSubcommandAliasName ((alistLookup reprs key).getD zeroAnalyzedCommand) ∉ g
      then some { Name := generateCommandSubcommandAliasName
                    ((alistLookup reprs key).getD zeroAnalyzedCommand),
                  Command := key }
      else none := by
  unfold firstArgTryEmit firstArgStaticOk
  cases alistLookup freq key with
  | none => simp
  | some count =>
    by_cases hc : count < mf
    · simp [hc]
    · simp only [if_neg hc]
      rw [isProposedNameValid_split]
      by_cases hs : isProposedNameValid
          (generateCommandSubcommandAliasName ((alistLookup reprs key).getD zeroAnalyzedCommand))
          ((alistLookup reprs key).getD zeroAnalyzedCommand).CommandName ex []
      · by_cases hm : generateCommandSubcommandAliasName
            ((alistLookup reprs key).getD zeroAnalyzedCommand) ∈ g
        · simp [hs, hm]
        · simp [hs, hm]
      · simp [hs]

/-- Names present in the run-scoped set after the strategy-1 pass: the
initial set plus, for each enumerated key that passes the static checks,
the name it proposes — independently of enumeration order. -/
theorem firstArg_names_mem (freq : List (GoStr × Int)) (reprs : List (GoStr × AnalyzedCommand))
    (mf : Int) (ex : List (GoStr × GoStr)) :
    ∀ (keyOrder : List GoStr) (g : List GoStr) (n : GoStr),
      n ∈ (emitLoop (firstArgTryEmit freq reprs mf ex) keyOrder g).2
      ↔ n ∈ g ∨ ∃ key ∈ keyOrder, firstArgStaticOk freq reprs mf ex key = true ∧
          n = generateCommandSubcommandAliasName
                ((alistLookup reprs key).getD zeroAnalyzedCommand) := by
  intro keyOrder
  induction keyOrder with
  | nil => intro g n; simp [emitLoop]
  | cons key rest ih =>
    intro g n
    unfold emitLoop
    rw [firstArgTryEmit_char]
    by_cases hst : firstArgStaticOk freq reprs mf ex key = true
    · by_cases hm : generateCommandSubcommandAliasName
          ((alistLookup reprs key).getD zeroAnalyzedCommand) ∈ g
      · rw [if_neg (by simp [hst, hm])]
        rw [ih g n]
        constructor
        · rintro (h | ⟨k, hk, hsk, hn⟩)
          · exact Or.inl h
          · exact Or.inr ⟨k, by simp [hk], hsk, hn⟩
        · rintro (h | ⟨k, hk, hsk, hn⟩)
          · exact Or.inl h
          · rcases List.mem_cons.mp hk with rfl | hk
            · exact Or.inl (hn ▸ hm)
            · exact Or.inr ⟨k, hk, hsk, hn⟩
      · rw [if_pos ⟨hst, hm⟩]
        simp only
        rw [ih _ n]
        simp only [List.mem_cons]
        constructor
        · rintro ((rfl | h) | ⟨k, hk, hsk, hn⟩)
          · exact Or.inr ⟨key, by simp, hst, rfl⟩
          · exact Or.inl h
          · exact Or.inr ⟨k, by simp [hk], hsk, hn⟩
        · rintro (h | ⟨k, hk, hsk, hn⟩)
          · exact Or.inl (Or.inr h)
          · rcases hk with rfl | hk
            · exact Or.inl (Or.inl hn)
            · exact Or.inr ⟨k, hk, hsk, hn⟩
    · rw [if_neg (by simp [hst])]
      rw [ih g n]
      constructor
      · rintro (h | ⟨k, hk, hsk, hn⟩)
        · exact Or.inl h
        · exact Or.inr ⟨k, by simp [hk], hsk, hn⟩
      · rintro (h | ⟨k, hk, hsk, hn⟩)
        · exact Or.inl h
        · rcases List.mem_cons.mp hk with rfl | hk
          · exact absurd hsk hst
          · exact Or.inr ⟨k, hk, hsk, hn⟩

theorem exactTryEmit_congr (analyzer : GoStr → AnalyzedCommand) (mf : Int)
    (ex : List (GoStr × GoStr)) (minLen : Nat) (cf : CommandFrequency) {g g' : List GoStr}
    (hg : ∀ m, m ∈ g ↔ m ∈ g') :
    exactTryEmit analyzer mf ex minLen cf g = exactTryEmit analyzer mf ex minLen cf g' := by
  unfold exactTryEmit
  simp only [show ∀ n cn, isProposedNameValid n cn ex g = isProposedNameValid n cn ex g' from
    fun n cn => isProposedNameValid_congr n cn ex hg]

/-- The strategy-2 suggestion list depends on the incoming run-scoped set
only through which names it contains. -/
theorem exactStrategyFst_congr (analyzer : GoStr → AnalyzedCommand) (mf : Int)
    (ex : List (GoStr × GoStr)) (minLen : Nat) :
    ∀ (commands : List CommandFrequency) {g g' : List GoStr}, (∀ m, m ∈ g ↔ m ∈ g') →
      (emitLoop (exactTryEmit analyzer mf ex minLen) commands g).1
        = (emitLoop (exactTryEmit analyzer mf ex minLen) commands g').1 := by
  intro commands
  induction commands with
  | nil => intro g g' _; simp [emitLoop]
  | cons cf rest ih =>
    intro g g' hg
    unfold emitLoop
    rw [exactTryEmit_congr analyzer mf ex minLen cf hg]
    cases ht : exactTryEmit analyzer mf ex minLen cf g' with
    | some al =>
      simp only
      have hg' : ∀ m, m ∈ al.Name :: g ↔ m ∈ al.Name :: g' := by
        intro m; simp [hg m]
      rw [ih hg']
    | none => exact ih hg

/-- Claim C2 (counterexample): `GenerateSuggestions` is not deterministic
as a function of (commands, existingAliases, minFrequency) alone.  With
commands `git pull` (10×) and `git push` (10×), both aggregation keys
propose the name `gp`; the two enumeration orders of the aggregation
map — both admissible iteration orders of the same Go map, being
permutations of its key set — yield different outputs (`gp → git pull`
versus `gp → git push`). -/
theorem c2_counterexample :
    (["git pull".toList, "git push".toList].Perm
        ((aggregateForCommandFirstArgStrategy basicAnalyze
          [⟨"git pull".toList, 10⟩, ⟨"git push".toList, 10⟩]
          minCommandEffectiveLength).1.map Prod.fst)
      ∧ ["git push".toList, "git pull".toList].Perm
        ((aggregateForCommandFirstArgStrategy basicAnalyze
          [⟨"git pull".toList, 10⟩, ⟨"git push".toList, 10⟩]
          minCommandEffectiveLength).1.map Prod.fst))
    ∧ generateSuggestionsWith basicAnalyze ["git pull".toList, "git push".toList]
        [⟨"git pull".toList, 10⟩, ⟨"git push".toList, 10⟩] [] 1
      ≠ generateSuggestionsWith basicAnalyze ["git push".toList, "git pull".toList]
        [⟨"git pull".toList, 10⟩, ⟨"git push".toList, 10⟩] [] 1 := by
  decide

/-- Claim C2 (amended): `GenerateSuggestions` is deterministic only up to
the iteration order of the strategy-1 aggregation map.  For any two
admissible iteration orders (permutations of one another), the SET of
returned alias names is the same and the strategy-2 sublist is
identical element for element; the full lists may differ in the order
of strategy-1 suggestions and, under proposed-name collisions, in which
aggregation key a name is attached to. -/
theorem c2_order_invariance (analyzer : GoStr → AnalyzedCommand)
    (commands : List CommandFrequency) (existingAliases : List (GoStr × GoStr))
    (minFrequency : Int) (keyOrder1 keyOrder2 : List GoStr)
    (hperm : keyOrder1.Perm keyOrder2) :
    (∀ n : GoStr,
      n ∈ (generateSuggestionsWith analyzer keyOrder1 commands existingAliases
            minFrequency).map Alias.Name
      ↔ n ∈ (generateSuggestionsWith analyzer keyOrder2 commands existingAliases
            minFrequency).map Alias.Name)
    ∧ (generateExactFullCommandAliasesStrategy analyzer commands minFrequency existingAliases
        (generateAliasesFromCommandFirstArgAggregation keyOrder1
          (aggregateForCommandFirstArgStrategy analyzer commands minCommandEffectiveLength).1
          (aggregateForCommandFirstArgStrategy analyzer commands minCommandEffectiveLength).2
          minFrequency existingAliases []).2 minCommandEffectiveLength).1
      = (generateExactFullCommandAliasesStrategy analyzer commands minFrequency existingAliases
        (generateAliasesFromCommandFirstArgAggregation keyOrder2
          (aggregateForCommandFirstArgStrategy analyzer commands minCommandEffectiveLength).1
          (aggregateForCommandFirstArgStrategy analyzer commands minCommandEffectiveLength).2
          minFrequency existingAliases []).2 minCommandEffectiveLength).1 := by
  simp only [generateSuggestionsWith, generateAliasesFromCommandFirstArgAggregation,
    generateExactFullCommandAliasesStrategy]
  set freq := (aggregateForCommandFirstArgStrategy analyzer commands minCommandEffectiveLength).1
  set reprs := (aggregateForCommandFirstArgStrategy analyzer commands minCommandEffectiveLength).2
  set t1 := firstArgTryEmit freq reprs minFrequency existingAliases with ht1
  set t2 := exactTryEmit analyzer minFrequency existingAliases minCommandEffectiveLength with ht2
  have hg1set : ∀ m, m ∈ (emitLoop t1 keyOrder1 []).2 ↔ m ∈ (emitLoop t1 keyOrder2 []).2 := by
    intro m
    rw [ht1, firstArg_names_mem freq reprs minFrequency existingAliases keyOrder1 [] m,
        firstArg_names_mem freq reprs minFrequency existingAliases keyOrder2 [] m]
    simp only [List.not_mem_nil, false_or]
    constructor
    · rintro ⟨k, hk, h⟩; exact ⟨k, hperm.subset hk, h⟩
    · rintro ⟨k, hk, h⟩; exact ⟨k, hperm.symm.subset hk, h⟩
  have hs2 : (emitLoop t2 commands (emitLoop t1 keyOrder1 []).2).1
      = (emitLoop t2 commands (emitLoop t1 keyOrder2 []).2).1 := by
    rw [ht2]
    exact exactStrategyFst_congr analyzer minFrequency existingAliases minCommandEffectiveLength
      commands hg1set
  refine ⟨?_, hs2⟩
  intro n
  have h1 : ∀ o : List GoStr,
      n ∈ ((emitLoop t1 o []).1.map Alias.Name) ↔ n ∈ (emitLoop t1 o []).2 := by
    intro o
    rw [emitLoop_snd]
    simp
  rw [List.map_append, List.map_append, List.mem_append, List.mem_append, hs2,
    h1 keyOrder1, hg1set n, ← h1 keyOrder2]

/-- Witness for `c2_order_invariance` at a concrete input: the two
enumeration orders of the `git pull` / `git push` aggregation map carry
the name `gp` in both outputs. -/
theorem c2_order_invariance_witness :
    "gp".toList ∈ (generateSuggestionsWith basicAnalyze
        ["git pull".toList, "git push".toList]
        [⟨"git pull".toList, 10⟩, ⟨"git push".toList, 10⟩] [] 1).map Alias.Name
    ↔ "gp".toList ∈ (generateSuggestionsWith basicAnalyze
        ["git push".toList, "git pull".toList]
        [⟨"git pull".toList, 10⟩, ⟨"git push".toList, 10⟩] [] 1).map Alias.Name :=
  (c2_order_invariance basicAnalyze [⟨"git pull".toList, 10⟩, ⟨"git push".toList, 10⟩] [] 1
    ["git pull".toList, "git push".toList] ["git push".toList, "git pull".toList]
    (by decide)).1 "gp".toList

/-- Witness for `c1_suggestion_invariants` at a concrete input: the
alias `up → cd ..` produced for `cd ..` (50×) has length ≥ 2 and is no
key of the (empty) existing-aliases map. -/
theorem c1_suggestion_invariants_witness :
    2 ≤ ("up".toList : GoStr).length
      ∧ existsKey ([] : List (GoStr × GoStr)) "up".toList = false :=
  (c1_suggestion_invariants basicAnalyze ["cd ..".toList] [⟨"cd ..".toList, 50⟩] [] 10).2.1
    { Name := "up".toList, Command := "cd ..".toList } (by decide)

/-- Claim C3 (counterexample): the subcommand strategy CAN emit a name
containing a dot.  For the single command `ls .hidden` (10×) the
aggregation key is `ls .hidden` (its map has one key, so the iteration
order is forced), the proposed name is `l` + first char of `.hidden` =
`l.`, and the shared validator's pattern `^[a-zA-Z0-9.]+$` accepts it,
so `Alias{Name: "l.", Command: "ls .hidden"}` is returned — `l.` does
not match `^[a-zA-Z0-9]+$`. -/
theorem c3_counterexample :
    generateSuggestions basicAnalyze [⟨"ls .hidden".toList, 10⟩] [] 1
      = [{ Name := "l.".toList, Command := "ls .hidden".toList }]
    ∧ (generateAliasesFromCommandFirstArgAggregation
        ((aggregateForCommandFirstArgStrategy basicAnalyze [⟨"ls .hidden".toList, 10⟩]
          minCommandEffectiveLength).1.map Prod.fst)
        (aggregateForCommandFirstArgStrategy basicAnalyze [⟨"ls .hidden".toList, 10⟩]
          minCommandEffectiveLength).1
        (aggregateForCommandFirstArgStrategy basicAnalyze [⟨"ls .hidden".toList, 10⟩]
          minCommandEffectiveLength).2
        1 [] []).1 = [{ Name := "l.".toList, Command := "ls .hidden".toList }]
    ∧ '.' ∈ ("l.".toList : GoStr) := by
  decide

/-- Claim C3 (amended): every alias emitted by the subcommand strategy has
a name matching the shared validator's pattern `^[a-zA-Z0-9.]+$` — a
dot is permitted (and can occur, e.g. when the first argument begins
with `.`), so the dot-free pattern `^[a-zA-Z0-9]+$` from the claim does
not hold. -/
theorem c3_amended_subcommand_names_match_shared_regex
    (keyOrder : List GoStr) (freq : List (GoStr × Int)) (reprs : List (GoStr × AnalyzedCommand))
    (minFrequency : Int) (existingAliases : List (GoStr × GoStr)) (generated : List GoStr) :
    ∀ al ∈ (generateAliasesFromCommandFirstArgAggregation keyOrder freq reprs minFrequency
        existingAliases generated).1,
      matchesValidAliasCharsRegex al.Name = true := by
  refine emitLoop_mem _ _ ?_ keyOrder generated
  intro x g al h
  exact (isProposedNameValid_spec (firstArgTryEmit_some h).2.2).2.1

/-- Witness for `c3_amended_subcommand_names_match_shared_regex`: the
emitted name `l.` matches `^[a-zA-Z0-9.]+$`. -/
theorem c3_amended_witness : matchesValidAliasCharsRegex "l.".toList = true :=
  c3_amended_subcommand_names_match_shared_regex
    ((aggregateForCommandFirstArgStrategy basicAnalyze [⟨"ls .hidden".toList, 10⟩]
      minCommandEffectiveLength).1.map Prod.fst)
    (aggregateForCommandFirstArgStrategy basicAnalyze [⟨"ls .hidden".toList, 10⟩]
      minCommandEffectiveLength).1
    (aggregateForCommandFirstArgStrategy basicAnalyze [⟨"ls .hidden".toList, 10⟩]
      minCommandEffectiveLength).2
    1 [] [] { Name := "l.".toList, Command := "ls .hidden".toList } (by decide)

/-- Modelled from the spec's words for comparison with the code (claim
C4): the last non-empty `/`-separated segment of the argument that does
not start with `.`. -/
def specLastQualifyingSegment (firstArg : GoStr) : Option GoStr :=
  ((splitOnChar '/' firstArg).filter
    (fun p => !p.isEmpty && !(['.'].isPrefixOf p))).getLast?

/-- Claim C4 (counterexample): for the analyzed command `x a/b/.c` the
first potential argument `a/b/.c` contains `/` and its last qualifying
segment in the claim's sense is `b` (segment `.c` is dot-prefixed, `b`
is not), so the claim predicts the name `x` + `b` = `xb`.  The code
inspects only the FINAL segment `.c`, finds it dot-prefixed, and falls
back to the raw argument's first character `a`, producing `xa`. -/
theorem c4_counterexample :
    generateCommandSubcommandAliasName (basicAnalyze "x a/b/.c".toList) = "xa".toList
    ∧ (basicAnalyze "x a/b/.c".toList).PotentialArgs = ["a/b/.c".toList]
    ∧ specLastQualifyingSegment "a/b/.c".toList = some "b".toList
    ∧ "xa".toList ≠ ("x".toList ++ "b".toList : GoStr) := by
  decide

/-- Claim C4 (amended): in subcommand-strategy name generation, when the
first potential argument contains `/`, the character appended after the
command initial is the lowercase first character of the FINAL
`/`-separated segment provided that segment is non-empty and does not
start with `.`; in every other case (final segment empty or
dot-prefixed) the lowercase first character of the raw argument is
appended — the code never searches backwards for an earlier qualifying
segment. -/
theorem c4_amended_final_segment_rule (a : AnalyzedCommand) (fa : GoStr) (rest : List GoStr)
    (hname : a.CommandName ≠ [])
    (hnotcd : ¬(a.CommandName = "cd".toList ∧ a.PotentialArgs = ["..".toList]))
    (hargs : a.PotentialArgs = fa :: rest)
    (hfa : fa ≠ [])
    (hslash : fa.contains '/' = true) :
    generateCommandSubcommandAliasName a
      = (a.CommandName.map Char.toLower).take 1 ++
        (if (splitOnChar '/' fa).getLastD [] ≠ [] ∧
            ¬(['.'].isPrefixOf ((splitOnChar '/' fa).getLastD [])) then
          (((splitOnChar '/' fa).getLastD []).map Char.toLower).take 1
        else
          (fa.map Char.toLower).take 1) := by
  unfold generateCommandSubcommandAliasName
  rw [if_neg hname, if_neg hnotcd, hargs]
  simp only
  have hlen : fa.length > 0 := by
    cases fa
    · exact absurd rfl hfa
    · simp
  rw [if_pos hlen, if_pos hslash, apply_ite (fun s => List.take 1
    (List.map Char.toLower a.CommandName) ++ s)]

/-- Witness for `c4_amended_final_segment_rule` at the analyzed command
`x a/b/.c`: the rule yields `xa`. -/
theorem c4_amended_witness :
    generateCommandSubcommandAliasName (basicAnalyze "x a/b/.c".toList) = "xa".toList := by
  have h := c4_amended_final_segment_rule (basicAnalyze "x a/b/.c".toList) "a/b/.c".toList []
    (by decide) (by decide) (by decide) (by decide) (by decide)
  rw [h]
  decide

/-- Claim C5: the `minFrequency` threshold is inclusive in both
strategies.  An exact-strategy entry whose `Count` equals `minFrequency`
is not skipped on frequency grounds (it yields its suggestion when the
other guards and name validation pass), while `Count = minFrequency - 1`
yields no suggestion; likewise for a subcommand-strategy aggregated key
whose accumulated count equals `minFrequency` or `minFrequency - 1`. -/
theorem c5_min_frequency_inclusive (analyzer : GoStr → AnalyzedCommand)
    (existingAliases : List (GoStr × GoStr)) (minFrequency : Int) (cmd : GoStr)
    (key : GoStr) (reprCmd : AnalyzedCommand) :
    ((analyzer cmd).IsComplex = false →
      minCommandEffectiveLength ≤ (analyzer cmd).EffectiveLength →
      (analyzer cmd).CommandName ≠ [] →
      isProposedNameValid (generateExactCommandAliasName (analyzer cmd))
        (analyzer cmd).CommandName existingAliases [] = true →
      (generateExactFullCommandAliasesStrategy analyzer
          [{ Command := cmd, Count := minFrequency }] minFrequency existingAliases []
          minCommandEffectiveLength).1
        = [{ Name := generateExactCommandAliasName (analyzer cmd), Command := cmd }])
    ∧ (generateExactFullCommandAliasesStrategy analyzer
          [{ Command := cmd, Count := minFrequency - 1 }] minFrequency existingAliases []
          minCommandEffectiveLength).1 = []
    ∧ (isProposedNameValid (generateCommandSubcommandAliasName reprCmd) reprCmd.CommandName
          existingAliases [] = true →
        (generateAliasesFromCommandFirstArgAggregation [key] [(key, minFrequency)]
            [(key, reprCmd)] minFrequency existingAliases []).1
          = [{ Name := generateCommandSubcommandAliasName reprCmd, Command := key }])
    ∧ (generateAliasesFromCommandFirstArgAggregation [key] [(key, minFrequency - 1)]
          [(key, reprCmd)] minFrequency existingAliases []).1 = [] := by
  have hkey : alistLookup [(key, minFrequency)] key = some minFrequency := by
    simp [alistLookup]
  have hkey' : alistLookup [(key, minFrequency - 1)] key = some (minFrequency - 1) := by
    simp [alistLookup]
  have hrepr : alistLookup [(key, reprCmd)] key = some reprCmd := by
    simp [alistLookup]
  refine ⟨?_, ?_, ?_, ?_⟩
  · intro h1 h2 h3 h4
    have ht : exactTryEmit analyzer minFrequency existingAliases minCommandEffectiveLength
        { Command := cmd, Count := minFrequency } []
        = some { Name := generateExactCommandAliasName (analyzer cmd), Command := cmd } := by
      simp only [exactTryEmit]
      rw [if_neg (by simp [h1]), if_neg (Nat.not_lt.mpr h2),
        if_neg (lt_irrefl minFrequency), if_neg h3, if_pos h4]
    simp only [generateExactFullCommandAliasesStrategy, emitLoop, ht]
  · have ht : exactTryEmit analyzer minFrequency existingAliases minCommandEffectiveLength
        { Command := cmd, Count := minFrequency - 1 } [] = none := by
      simp only [exactTryEmit]
      split_ifs <;> first | rfl | omega
    simp only [generateExactFullCommandAliasesStrategy, emitLoop, ht]
  · intro hv
    have ht : firstArgTryEmit [(key, minFrequency)] [(key, reprCmd)] minFrequency
        existingAliases key []
        = some { Name := generateCommandSubcommandAliasName reprCmd, Command := key } := by
      simp only [firstArgTryEmit, hkey, hrepr]
      rw [if_neg (lt_irrefl minFrequency)]
      simp only [Option.getD_some]
      rw [if_pos hv]
    simp only [generateAliasesFromCommandFirstArgAggregation, emitLoop, ht]
  · have ht : firstArgTryEmit [(key, minFrequency - 1)] [(key, reprCmd)] minFrequency
        existingAliases key [] = none := by
      simp only [firstArgTryEmit, hkey']
      rw [if_pos (by omega : minFrequency - 1 < minFrequency)]
    simp only [generateAliasesFromCommandFirstArgAggregation, emitLoop, ht]

/-- Witness for `c5_min_frequency_inclusive` at `git pull`,
`minFrequency = 20`, empty existing aliases: count 20 is included by
both strategies, count 19 is excluded by both. -/
theorem c5_min_frequency_inclusive_witness :
    (generateExactFullCommandAliasesStrategy basicAnalyze
        [{ Command := "git pull".toList, Count := 20 }] 20 [] [] minCommandEffectiveLength).1
      = [{ Name := generateExactCommandAliasName (basicAnalyze "git pull".toList),
           Command := "git pull".toList }]
    ∧ (generateExactFullCommandAliasesStrategy basicAnalyze
        [{ Command := "git pull".toList, Count := 20 - 1 }] 20 [] []
        minCommandEffectiveLength).1 = []
    ∧ (generateAliasesFromCommandFirstArgAggregation ["git pull".toList]
        [("git pull".toList, 20)]
        [("git pull".toList,
          { Original := "git pull".toList, CommandName := "git".toList, IsComplex := false,
            PotentialArgs := ["pull".toList], EffectiveLength := 7 })] 20 [] []).1
      = [{ Name := generateCommandSubcommandAliasName
            { Original := "git pull".toList, CommandName := "git".toList, IsComplex := false,
              PotentialArgs := ["pull".toList], EffectiveLength := 7 },
           Command := "git pull".toList }]
    ∧ (generateAliasesFromCommandFirstArgAggregation ["git pull".toList]
        [("git pull".toList, 20 - 1)]
        [("git pull".toList,
          { Original := "git pull".toList, CommandName := "git".toList, IsComplex := false,
            PotentialArgs := ["pull".toList], EffectiveLength := 7 })] 20 [] []).1 = [] := by
  have h := c5_min_frequency_inclusive basicAnalyze [] 20 "git pull".toList "git pull".toList
    { Original := "git pull".toList, CommandName := "git".toList, IsComplex := false,
      PotentialArgs := ["pull".toList], EffectiveLength := 7 }
  exact ⟨h.1 (by decide) (by decide) (by decide) (by decide), h.2.1,
    h.2.2.1 (by decide), h.2.2.2⟩

/-- Claim C6: `GenerateSuggestions` has no error outcome — in the model it
is a total function into `List Alias` (the Go code initialises the
result as an empty, non-nil slice and only ever appends) — and for
`minFrequency = 10` with the single command `mycmd arg1` (5×, below the
threshold for both strategies) it returns the empty list. -/
theorem c6_below_threshold_empty_list :
    generateSuggestions basicAnalyze [{ Command := "mycmd arg1".toList, Count := 5 }] [] 10
      = [] := by
  decide

/-- Claim C7: for input `cd ..` (50×), empty existing aliases and any
`minFrequency ≤ 50`, both strategies propose `up`; the subcommand
strategy (run first) emits it and the exact strategy's duplicate is
rejected by the run-scoped generated-names set, so exactly one alias
`up → cd ..` is returned. -/
theorem c7_cd_dotdot_single_up (minFrequency : Int) (h : minFrequency ≤ 50) :
    generateSuggestions basicAnalyze [{ Command := "cd ..".toList, Count := 50 }] []
      minFrequency
      = [{ Name := "up".toList, Command := "cd ..".toList }] := by
  have hnot : ¬ ((50 : Int) < minFrequency) := not_lt.mpr h
  have hagg : aggregateForCommandFirstArgStrategy basicAnalyze
      [{ Command := "cd ..".toList, Count := 50 }] minCommandEffectiveLength
      = ([("cd ..".toList, 50)],
         [("cd ..".toList,
           { Original := "cd ..".toList, CommandName := "cd".toList, IsComplex := false,
             PotentialArgs := ["..".toList], EffectiveLength := 4 })]) := by
    decide
  have ht1 : firstArgTryEmit [("cd ..".toList, 50)]
      [("cd ..".toList,
        { Original := "cd ..".toList, CommandName := "cd".toList, IsComplex := false,
          PotentialArgs := ["..".toList], EffectiveLength := 4 })]
      minFrequency [] "cd ..".toList []
      = some { Name := "up".toList, Command := "cd ..".toList } := by
    simp only [firstArgTryEmit, show alistLookup [("cd ..".toList, (50 : Int))] "cd ..".toList
      = some 50 from by simp [alistLookup]]
    rw [if_neg hnot]
    decide
  have ht2 : exactTryEmit basicAnalyze minFrequency [] minCommandEffectiveLength
      { Command := "cd ..".toList, Count := 50 } ["up".toList] = none := by
    simp only [exactTryEmit]
    rw [if_neg (by decide), if_neg (by decide), if_neg hnot, if_neg (by decide),
      if_neg (by decide)]
  unfold generateSuggestions generateSuggestionsWith
  rw [hagg]
  simp only [generateAliasesFromCommandFirstArgAggregation,
    generateExactFullCommandAliasesStrategy, List.map_cons, List.map_nil, emitLoop, ht1, ht2,
    List.append_nil]

/-- Witness for `c7_cd_dotdot_single_up` at `minFrequency = 10`. -/
theorem c7_cd_dotdot_single_up_witness :
    generateSuggestions basicAnalyze [{ Command := "cd ..".toList, Count := 50 }] [] 10
      = [{ Name := "up".toList, Command := "cd ..".toList }] :=
  c7_cd_dotdot_single_up 10 (by decide)

/-- Embeds `validAliasCharsRegexGenerator = ^[a-zA-Z0-9]+$` (`generator.go`):
one or more alphanumerics, spanning the whole string, no dot. -/
def matchesValidAliasCharsRegexGenerator (s : GoStr) : Bool :=
  !s.isEmpty && s.all (fun c => c.isAlphanum)

/-- Embeds `AliasGenerator.IsValidAliasName` (`generator.go`); the
`exec.LookPath` side query is injected as `lookPathFound` (true exactly
when the name resolves to an executable on the system search path). -/
def IsValidAliasName (lookPathFound : GoStr → Bool) (nameToCheck : GoStr)
    (existingAliases : List (GoStr × GoStr)) : Bool :=
  if nameToCheck.length < 1 then false
  else if !matchesValidAliasCharsRegexGenerator nameToCheck then false
  else if existsKey existingAliases nameToCheck then false
  else if lookPathFound nameToCheck then false
  else true

/-- Claim C8: `IsValidAliasName(name, existingAliases)` returns true iff
the name is non-empty, matches `^[a-zA-Z0-9]+$`, is not a key of
`existingAliases`, and the injected PATH lookup does not resolve it to
an executable; contrapositively, each of the four conditions failing
makes it return false. -/
theorem c8_is_valid_alias_name_iff (lookPathFound : GoStr → Bool) (nameToCheck : GoStr)
    (existingAliases : List (GoStr × GoStr)) :
    IsValidAliasName lookPathFound nameToCheck existingAliases = true
      ↔ (nameToCheck ≠ [] ∧ matchesValidAliasCharsRegexGenerator nameToCheck = true
          ∧ existsKey existingAliases nameToCheck = false
          ∧ lookPathFound nameToCheck = false) := by
  unfold IsValidAliasName
  constructor
  · intro h
    by_cases h1 : nameToCheck.length < 1
    · simp [h1] at h
    by_cases h2 : matchesValidAliasCharsRegexGenerator nameToCheck
    · by_cases h3 : existsKey existingAliases nameToCheck
      · simp [h1, h2, h3] at h
      by_cases h4 : lookPathFound nameToCheck
      · simp [h1, h2, h3, h4] at h
      · have hne : nameToCheck ≠ [] := by
          intro hn
          rw [hn] at h1
          exact h1 (by simp)
        exact ⟨hne, by simp [h2], by simp [h3], by simp [h4]⟩
    · simp [h1, h2] at h
  · rintro ⟨hne, h2, h3, h4⟩
    have h1 : ¬ nameToCheck.length < 1 := by
      have := List.length_pos.mpr hne
      omega
    simp [h1, h2, h3, h4]

/-! ### The calling service: combineSuggestions and predefined aliases -/

/-- Embeds `m[key] = v` on a Go map modelled as an association list: overwrite
the binding in place when the key is present, append it otherwise. -/
def mapInsert {β : Type} : List (GoStr × β) → GoStr → β → List (GoStr × β)
  | [], key, v => [(key, v)]
  | (k, w) :: rest, key, v =>
    if k = key then (k, v) :: rest else (k, w) :: mapInsert rest key v

/-- Embeds `service.combineSuggestions`
(`internal/core/services/aliassuggestion`): predefined entries enter the
final map first, dynamic entries only when their name is not yet
present; the map is materialised in insertion order (the properties
proved about it do not depend on the enumeration order of Go's
`range`). -/
def combineSuggestions (predefined dynamic : List Alias) : List Alias :=
  let finalMap : List (GoStr × Alias) :=
    predefined.foldl (fun m pa => mapInsert m pa.Name pa) []
  let finalMap :=
    dynamic.foldl (fun m ds => if existsKey m ds.Name then m else mapInsert m ds.Name ds)
      finalMap
  finalMap.map Prod.snd

theorem existsKey_eq_true_iff {β : Type} (m : List (GoStr × β)) (k : GoStr) :
    existsKey m k = true ↔ ∃ p ∈ m, p.1 = k := by
  unfold existsKey
  rw [List.any_eq_true]
  constructor
  · rintro ⟨p, hp, h⟩
    exact ⟨p, hp, of_decide_eq_true h⟩
  · rintro ⟨p, hp, h⟩
    exact ⟨p, hp, decide_eq_true h⟩

theorem mapInsert_keys_mem {β : Type} :
    ∀ (m : List (GoStr × β)) (k : GoStr) (v : β) (n : GoStr),
      n ∈ (mapInsert m k v).map Prod.fst ↔ n ∈ m.map Prod.fst ∨ n = k := by
  intro m
  induction m with
  | nil => intro k v n; simp [mapInsert]
  | cons p rest ih =>
    intro k v n
    obtain ⟨k0, w⟩ := p
    by_cases hk : k0 = k
    · subst hk
      unfold mapInsert
      rw [if_pos rfl]
      simp only [List.map_cons, List.mem_cons]
      tauto
    · unfold mapInsert
      rw [if_neg hk]
      simp only [List.map_cons, List.mem_cons, ih k v n]
      tauto

theorem mapInsert_keys_nodup {β : Type} :
    ∀ (m : List (GoStr × β)) (k : GoStr) (v : β), (m.map Prod.fst).Nodup →
      ((mapInsert m k v).map Prod.fst).Nodup := by
  intro m
  induction m with
  | nil => intro k v _; simp [mapInsert]
  | cons p rest ih =>
    intro k v h
    obtain ⟨k0, w⟩ := p
    simp only [List.map_cons, List.nodup_cons] at h
    by_cases hk : k0 = k
    · subst hk
      unfold mapInsert
      rw [if_pos rfl]
      simp only [List.map_cons, List.nodup_cons]
      exact h
    · unfold mapInsert
      rw [if_neg hk]
      simp only [List.map_cons, List.nodup_cons]
      refine ⟨fun hmem => ?_, ih k v h.2⟩
      rcases (mapInsert_keys_mem rest k v k0).mp hmem with hmem | rfl
      · exact h.1 hmem
      · exact hk rfl

theorem mapInsert_mem_of_ne {β : Type} :
    ∀ {m : List (GoStr × β)} {k' : GoStr} {v' : β}, (k', v') ∈ m →
      ∀ {k : GoStr} (v : β), k' ≠ k → (k', v') ∈ mapInsert m k v := by
  intro m
  induction m with
  | nil => intro k' v' h; simp at h
  | cons p rest ih =>
    intro k' v' h k v hne
    obtain ⟨k0, w⟩ := p
    rcases List.mem_cons.mp h with heq | h
    · obtain ⟨rfl, rfl⟩ := Prod.mk.inj heq
      unfold mapInsert
      rw [if_neg hne]
      exact List.mem_cons_self _ _
    · by_cases hk : k0 = k
      · subst hk
        unfold mapInsert
        rw [if_pos rfl]
        exact List.mem_cons_of_mem _ h
      · unfold mapInsert
        rw [if_neg hk]
        exact List.mem_cons_of_mem _ (ih h v hne)

theorem mapInsert_self_mem {β : Type} :
    ∀ (m : List (GoStr × β)) (k : GoStr) (v : β), (k, v) ∈ mapInsert m k v := by
  intro m
  induction m with
  | nil => intro k v; simp [mapInsert]
  | cons p rest ih =>
    intro k v
    obtain ⟨k0, w⟩ := p
    unfold mapInsert
    by_cases hk : k0 = k
    · subst hk
      rw [if_pos rfl]
      exact List.mem_cons_self _ _
    · rw [if_neg hk]
      exact List.mem_cons_of_mem _ (ih k v)

theorem mapInsert_forall {β : Type} (P : GoStr × β → Prop) :
    ∀ {m : List (GoStr × β)} {k : GoStr} {v : β}, (∀ p ∈ m, P p) → P (k, v) →
      ∀ p ∈ mapInsert m k v, P p := by
  intro m
  induction m with
  | nil =>
    intro k v _ hv p hp
    simp [mapInsert] at hp
    exact hp ▸ hv
  | cons q rest ih =>
    intro k v hm hv p hp
    obtain ⟨k0, w⟩ := q
    unfold mapInsert at hp
    by_cases hk : k0 = k
    · subst hk
      rw [if_pos rfl] at hp
      rcases List.mem_cons.mp hp with rfl | hp
      · exact hv
      · exact hm _ (List.mem_cons_of_mem _ hp)
    · rw [if_neg hk] at hp
      rcases List.mem_cons.mp hp with rfl | hp
      · exact hm _ (List.mem_cons_self _ _)
      · exact ih (fun q hq => hm q (List.mem_cons_of_mem _ hq)) hv p hp

theorem foldInsert_keys_mem :
    ∀ (l : List Alias) (m : List (GoStr × Alias)) (n : GoStr),
      n ∈ (l.foldl (fun m pa => mapInsert m pa.Name pa) m).map Prod.fst
      ↔ n ∈ m.map Prod.fst ∨ ∃ pa ∈ l, pa.Name = n := by
  intro l
  induction l with
  | nil =>
    intro m n
    simp only [List.foldl_nil]
    constructor
    · exact Or.inl
    · rintro (h | ⟨q, hq, _⟩)
      · exact h
      · simp at hq
  | cons pa rest ih =>
    intro m n
    simp only [List.foldl_cons]
    rw [ih (mapInsert m pa.Name pa) n, mapInsert_keys_mem]
    simp only [List.mem_cons]
    constructor
    · rintro ((h | rfl) | ⟨q, hq, hn⟩)
      · exact Or.inl h
      · exact Or.inr ⟨pa, Or.inl rfl, rfl⟩
      · exact Or.inr ⟨q, Or.inr hq, hn⟩
    · rintro (h | ⟨q, rfl | hq, hn⟩)
      · exact Or.inl (Or.inl h)
      · exact Or.inl (Or.inr hn.symm)
      · exact Or.inr ⟨q, hq, hn⟩

theorem foldInsert_keys_nodup :
    ∀ (l : List Alias) (m : List (GoStr × Alias)), (m.map Prod.fst).Nodup →
      ((l.foldl (fun m pa => mapInsert m pa.Name pa) m).map Prod.fst).Nodup := by
  intro l
  induction l with
  | nil => intro m h; exact h
  | cons pa rest ih =>
    intro m h
    simp only [List.foldl_cons]
    exact ih _ (mapInsert_keys_nodup m pa.Name pa h)

theorem foldInsert_forall (P : GoStr × Alias → Prop) :
    ∀ (l : List Alias) (m : List (GoStr × Alias)), (∀ p ∈ m, P p) →
      (∀ pa ∈ l, P (pa.Name, pa)) →
      ∀ p ∈ l.foldl (fun m pa => mapInsert m pa.Name pa) m, P p := by
  intro l
  induction l with
  | nil => intro m hm _ p hp; exact hm p hp
  | cons pa rest ih =>
    intro m hm hl p hp
    simp only [List.foldl_cons] at hp
    exact ih _ (mapInsert_forall P hm (hl pa (List.mem_cons_self _ _)))
      (fun q hq => hl q (List.mem_cons_of_mem _ hq)) p hp

theorem foldInsert_mem_of_not_name :
    ∀ (l : List Alias) (m : List (GoStr × Alias)) (k' : GoStr) (v' : Alias),
      (k', v') ∈ m → (∀ pa ∈ l, pa.Name ≠ k') →
      (k', v') ∈ l.foldl (fun m pa => mapInsert m pa.Name pa) m := by
  intro l
  induction l with
  | nil => intro m k' v' h _; exact h
  | cons pa rest ih =>
    intro m k' v' h hl
    simp only [List.foldl_cons]
    exact ih _ k' v'
      (mapInsert_mem_of_ne h pa (fun he => hl pa (List.mem_cons_self _ _) he.symm))
      (fun q hq => hl q (List.mem_cons_of_mem _ hq))

theorem foldInsert_self_mem :
    ∀ (l : List Alias) (m : List (GoStr × Alias)), (l.map Alias.Name).Nodup →
      ∀ pa ∈ l, (pa.Name, pa) ∈ l.foldl (fun m pa => mapInsert m pa.Name pa) m := by
  intro l
  induction l with
  | nil => intro m _ pa hpa; simp at hpa
  | cons pa0 rest ih =>
    intro m hnd pa hpa
    simp only [List.map_cons, List.nodup_cons] at hnd
    simp only [List.foldl_cons]
    rcases List.mem_cons.mp hpa with rfl | hpa
    · refine foldInsert_mem_of_not_name rest _ pa.Name pa (mapInsert_self_mem m pa.Name pa) ?_
      intro q hq he
      exact hnd.1 (he ▸ List.mem_map_of_mem Alias.Name hq)
    · exact ih _ hnd.2 pa hpa

theorem foldDyn_mem_preserved :
    ∀ (l : List Alias) (m : List (GoStr × Alias)) (p : GoStr × Alias), p ∈ m →
      p ∈ l.foldl (fun m ds => if existsKey m ds.Name then m else mapInsert m ds.Name ds) m := by
  intro l
  induction l with
  | nil => intro m p h; exact h
  | cons ds rest ih =>
    intro m p h
    simp only [List.foldl_cons]
    by_cases hk : existsKey m ds.Name
    · rw [if_pos hk]
      exact ih m p h
    · rw [if_neg hk]
      refine ih _ p (mapInsert_mem_of_ne h ds ?_)
      intro he
      exact hk ((existsKey_eq_true_iff m ds.Name).mpr ⟨p, h, he⟩)

theorem foldDyn_keys_mem :
    ∀ (l : List Alias) (m : List (GoStr × Alias)) (n : GoStr),
      n ∈ (l.foldl (fun m ds => if existsKey m ds.Name then m
            else mapInsert m ds.Name ds) m).map Prod.fst
      ↔ n ∈ m.map Prod.fst ∨ ∃ ds ∈ l, ds.Name = n := by
  intro l
  induction l with
  | nil =>
    intro m n
    simp only [List.foldl_nil]
    constructor
    · exact Or.inl
    · rintro (h | ⟨q, hq, _⟩)
      · exact h
      · simp at hq
  | cons ds rest ih =>
    intro m n
    simp only [List.foldl_cons, List.mem_cons]
    by_cases hk : existsKey m ds.Name
    · rw [if_pos hk]
      rw [ih m n]
      constructor
      · rintro (h | ⟨q, hq, hn⟩)
        · exact Or.inl h
        · exact Or.inr ⟨q, Or.inr hq, hn⟩
      · rintro (h | ⟨q, rfl | hq, hn⟩)
        · exact Or.inl h
        · obtain ⟨p, hp, hpk⟩ := (existsKey_eq_true_iff m q.Name).mp hk
          exact Or.inl (hn ▸ hpk ▸ List.mem_map_of_mem Prod.fst hp)
        · exact Or.inr ⟨q, hq, hn⟩
    · rw [if_neg hk]
      rw [ih _ n, mapInsert_keys_mem]
      constructor
      · rintro ((h | rfl) | ⟨q, hq, hn⟩)
        · exact Or.inl h
        · exact Or.inr ⟨ds, Or.inl rfl, rfl⟩
        · exact Or.inr ⟨q, Or.inr hq, hn⟩
      · rintro (h | ⟨q, rfl | hq, hn⟩)
        · exact Or.inl (Or.inl h)
        · exact Or.inl (Or.inr hn.symm)
        · exact Or.inr ⟨q, hq, hn⟩

theorem foldDyn_keys_nodup :
    ∀ (l : List Alias) (m : List (GoStr × Alias)), (m.map Prod.fst).Nodup →
      ((l.foldl (fun m ds => if existsKey m ds.Name then m
          else mapInsert m ds.Name ds) m).map Prod.fst).Nodup := by
  intro l
  induction l with
  | nil => intro m h; exact h
  | cons ds rest ih =>
    intro m h
    simp only [List.foldl_cons]
    by_cases hk : existsKey m ds.Name
    · rw [if_pos hk]
      exact ih m h
    · rw [if_neg hk]
      exact ih _ (mapInsert_keys_nodup m ds.Name ds h)

theorem foldDyn_forall (P : GoStr × Alias → Prop) :
    ∀ (l : List Alias) (m : List (GoStr × Alias)), (∀ p ∈ m, P p) →
      (∀ ds ∈ l, P (ds.Name, ds)) →
      ∀ p ∈ l.foldl (fun m ds => if existsKey m ds.Name then m
          else mapInsert m ds.Name ds) m, P p := by
  intro l
  induction l with
  | nil => intro m hm _ p hp; exact hm p hp
  | cons ds rest ih =>
    intro m hm hl p hp
    simp only [List.foldl_cons] at hp
    by_cases hk : existsKey m ds.Name
    · rw [if_pos hk] at hp
      exact ih m hm (fun q hq => hl q (List.mem_cons_of_mem _ hq)) p hp
    · rw [if_neg hk] at hp
      exact ih _ (mapInsert_forall P hm (hl ds (List.mem_cons_self _ _)))
        (fun q hq => hl q (List.mem_cons_of_mem _ hq)) p hp

/-- Claim C9: `combineSuggestions` merges the predefined and dynamic
lists so that (i) the returned names are pairwise distinct, (ii) every
predefined entry survives intact — in particular, for a name present in
both lists the returned command is the predefined one (predefined wins
the tie) — and (iii) a name appears in the result iff it appears in one
of the two input lists (with (i), exactly once).  The hypothesis that
predefined names are distinct makes "the predefined entry" for a name
well defined. -/
theorem c9_combine_predefined_wins (predefined dynamic : List Alias)
    (hnd : (predefined.map Alias.Name).Nodup) :
    ((combineSuggestions predefined dynamic).map Alias.Name).Nodup
    ∧ (∀ pa ∈ predefined, pa ∈ combineSuggestions predefined dynamic)
    ∧ (∀ n : GoStr,
        ((∃ al ∈ predefined, al.Name = n) ∨ (∃ al ∈ dynamic, al.Name = n))
        ↔ ∃ al ∈ combineSuggestions predefined dynamic, al.Name = n) := by
  unfold combineSuggestions
  simp only
  set m1 := predefined.foldl (fun m pa => mapInsert m pa.Name pa) [] with hm1
  set m2 := dynamic.foldl (fun m ds => if existsKey m ds.Name then m
    else mapInsert m ds.Name ds) m1 with hm2
  have hinv : ∀ p ∈ m2, p.2.Name = p.1 := by
    refine foldDyn_forall (fun p => p.2.Name = p.1) dynamic m1 ?_ (fun ds _ => rfl)
    exact foldInsert_forall (fun p => p.2.Name = p.1) predefined [] (by simp)
      (fun pa _ => rfl)
  have hnames : (m2.map Prod.snd).map Alias.Name = m2.map Prod.fst := by
    rw [List.map_map]
    exact List.map_congr_left (fun p hp => hinv p hp)
  refine ⟨?_, ?_, ?_⟩
  · rw [hnames]
    exact foldDyn_keys_nodup dynamic m1 (foldInsert_keys_nodup predefined [] (by simp))
  · intro pa hpa
    have h1 : (pa.Name, pa) ∈ m1 := foldInsert_self_mem predefined [] hnd pa hpa
    have h2 : (pa.Name, pa) ∈ m2 := foldDyn_mem_preserved dynamic m1 (pa.Name, pa) h1
    exact List.mem_map_of_mem Prod.snd h2
  · intro n
    have hk : (∃ al ∈ m2.map Prod.snd, al.Name = n) ↔ n ∈ (m2.map Prod.snd).map Alias.Name := by
      rw [List.mem_map]
    rw [hk, hnames, foldDyn_keys_mem, foldInsert_keys_mem]
    simp only [List.map_nil, List.not_mem_nil, false_or]

/-- Witness for `c9_combine_predefined_wins`: predefined
`gs → git status` beats dynamic `gs → git speed`; `ll` from the dynamic
list is kept; names in the result are distinct. -/
theorem c9_combine_predefined_wins_witness :
    ((combineSuggestions [{ Name := "gs".toList, Command := "git status".toList }]
        [{ Name := "gs".toList, Command := "git speed".toList },
         { Name := "ll".toList, Command := "ls -la".toList }]).map Alias.Name).Nodup
    ∧ { Name := "gs".toList, Command := "git status".toList }
        ∈ combineSuggestions [{ Name := "gs".toList, Command := "git status".toList }]
            [{ Name := "gs".toList, Command := "git speed".toList },
             { Name := "ll".toList, Command := "ls -la".toList }] := by
  have h := c9_combine_predefined_wins
    [{ Name := "gs".toList, Command := "git status".toList }]
    [{ Name := "gs".toList, Command := "git speed".toList },
     { Name := "ll".toList, Command := "ls -la".toList }] (by decide)
  exact ⟨h.1, h.2.1 _ (by decide)⟩

/-- Embeds `ports.SuggestionResult`. -/
structure SuggestionResult where
  Suggestions : List Alias
  SourceDetails : GoStr
deriving DecidableEq, Repr

/-- Embeds `service.loadAndFilterPredefined`
(`internal/core/services/aliassuggestion`), with the provider's
`GetPredefinedAliases` outcome injected: `none` = no provider
configured, `some (.error e)` = the load failed, `some (.ok l)` = it
returned `l`.  The result is (valid, allLoaded, error); note the load
failure is mapped to two empty lists and a `none` error, exactly as the
Go code does. -/
def loadAndFilterPredefined (lookPathFound : GoStr → Bool)
    (provider : Option (Except GoStr (List Alias)))
    (existingShellAliases : List (GoStr × GoStr)) :
    List Alias × List Alias × Option GoStr :=
  match provider with
  | none => ([], [], none)
  | some (.error _) => ([], [], none)
  | some (.ok loadedPredefined) =>
    (loadedPredefined.filter
      (fun pa => IsValidAliasName lookPathFound pa.Name existingShellAliases),
     loadedPredefined, none)

/-- Embeds `service.buildForbiddenNamesMap`: existing shell aliases plus the
valid predefined aliases, as one name → command map. -/
def buildForbiddenNamesMap (existingShellAliases : List (GoStr × GoStr))
    (validPredefinedAliases : List Alias) : List (GoStr × GoStr) :=
  validPredefinedAliases.foldl (fun m pa => mapInsert m pa.Name pa.Command)
    existingShellAliases

/-- Embeds `service.GetSuggestions`
(`internal/core/services/aliassuggestion`), with collaborator responses
injected: `existingAliasesRes` for `shellConfig.GetExistingAliases`,
`provider` for the optional predefined-alias provider outcome,
`frequenciesRes` for `historyProvider.GetCommandFrequencies`, and
`sourceId` for `historyProvider.GetSourceIdentifier`.  Returns
`.error` exactly where the Go method returns a non-nil error. -/
def GetSuggestions (lookPathFound : GoStr → Bool) (analyzer : GoStr → AnalyzedCommand)
    (existingAliasesRes : Except GoStr (List (GoStr × GoStr)))
    (provider : Option (Except GoStr (List Alias)))
    (frequenciesRes : Except GoStr (List CommandFrequency))
    (sourceId : GoStr) (minFrequency : Int) : Except GoStr SuggestionResult :=
  match existingAliasesRes with
  | .error e =>
    .error ("failed to get existing aliases for suggestion generation: ".toList ++ e)
  | .ok existingShellAliases =>
    let loaded :=
      match provider with
      | none => ([], [], none)
      | some _ => loadAndFilterPredefined lookPathFound provider existingShellAliases
    let validPredefined := loaded.1
    let allLoadedPredefined := loaded.2.1
    let forbiddenNamesForDynamicGen :=
      buildForbiddenNamesMap existingShellAliases validPredefined
    match frequenciesRes with
    | .error e => .error ("failed to get command frequencies: ".toList ++ e)
    | .ok frequencies =>
      let dynamicSuggestions :=
        generateSuggestions analyzer frequencies forbiddenNamesForDynamicGen minFrequency
      let sourceDetails := sourceId ++ " (suggestions from command history".toList
      let sourceDetails := sourceDetails ++
        (match provider with
         | some _ =>
           if allLoadedPredefined ≠ [] then
             "; predefined aliases considered for conflict avoidance".toList
           else
             "; predefined aliases configured but none loaded/found for conflict avoidance".toList
         | none => [])
      let sourceDetails := sourceDetails ++ ")".toList
      .ok { Suggestions := combineSuggestions [] dynamicSuggestions,
            SourceDetails := sourceDetails }

/-- Claim C10 (implicit behaviour): when the predefined-alias provider's
load fails, `loadAndFilterPredefined` swallows the error — it returns
two empty lists and a nil error — and `GetSuggestions` does not
propagate the failure: it succeeds and its `Suggestions` are exactly
the dynamic suggestions it would return with no predefined provider
configured (only the `SourceDetails` text differs), namely the
generator's output against the forbidden-names map built from the
existing shell aliases alone. -/
theorem c10_predefined_load_error_swallowed (lookPathFound : GoStr → Bool)
    (analyzer : GoStr → AnalyzedCommand) (e : GoStr)
    (existingShellAliases : List (GoStr × GoStr)) (frequencies : List CommandFrequency)
    (sourceId : GoStr) (minFrequency : Int) :
    loadAndFilterPredefined lookPathFound (some (.error e)) existingShellAliases
      = ([], [], none)
    ∧ (GetSuggestions lookPathFound analyzer (.ok existingShellAliases) (some (.error e))
        (.ok frequencies) sourceId minFrequency).map SuggestionResult.Suggestions
      = (GetSuggestions lookPathFound analyzer (.ok existingShellAliases) none
        (.ok frequencies) sourceId minFrequency).map SuggestionResult.Suggestions
    ∧ (GetSuggestions lookPathFound analyzer (.ok existingShellAliases) (some (.error e))
        (.ok frequencies) sourceId minFrequency).map SuggestionResult.Suggestions
      = .ok (combineSuggestions []
          (generateSuggestions analyzer frequencies
            (buildForbiddenNamesMap existingShellAliases []) minFrequency)) :=
  ⟨rfl, rfl, rfl⟩

end Nicksh
